import Mathlib

/-!
Verification of the reger library (a streaming adapter over Go's regexp
engine).  The development shallowly embeds:

* the character-stream source (`Src`) and the buffering proxy (`Reger`,
  `Reger.ReadRune`) from src/reger.go;
* the external pattern-matching engine: Go's regexp NFA machine in its
  streaming mode (`inputReader.step`, `machine.add`, `machine.step`,
  `machine.match` from go/src/regexp/exec.go and regexp.go), restricted to
  the instruction forms produced for the patterns the claims mention
  (literal runes, alternation, capture, match; no empty-width assertions,
  no longest-match mode, no one-pass or backtracking fast paths, which Go
  does not use for unanchored patterns read from an io.RuneReader);
* every adapter operation of src/reger.go and src/allidx.go.

Machine integers are Nat/Int; Go byte slices are `List Nat`; a Go slice
that can be nil is `Option` of a list; a Go panic is `GoRes.panic`; a loop
that exceeds its fuel is `GoRes.diverge` (used to witness non-termination).
-/

/-- Result of running a fallible / possibly diverging Go computation. -/
inductive GoRes (α : Type) where
  | ok (a : α)
  | panic
  | diverge
deriving Repr, DecidableEq

/-- Go nil-able slice: `none` is the nil slice, `some l` a non-nil slice. -/
abbrev GoList (α : Type) : Type := Option (List α)

/-- Go `append` on a nil-able slice: appending to nil yields a non-nil slice. -/
def goAppend {α : Type} (l : GoList α) (a : α) : GoList α :=
  some (l.getD [] ++ [a])

/-- The list of elements of a nil-able slice (nil and empty coincide). -/
def goElems {α : Type} (l : GoList α) : List α := l.getD []

/-- UTF-8 encoding of a code point (as produced by Go utf8.AppendRune for
valid runes; all inputs in this development are ASCII). -/
def utf8Enc (c : Int) : List Nat :=
  let n := c.toNat
  if n < 128 then [n]
  else if n < 2048 then [192 + n / 64, 128 + n % 64]
  else if n < 65536 then [224 + n / 4096, 128 + (n / 64) % 64, 128 + n % 64]
  else [240 + n / 262144, 128 + (n / 4096) % 64, 128 + (n / 64) % 64, 128 + n % 64]

/-- Byte width of a code point, the size returned by a Go RuneReader. -/
def utf8Len (c : Int) : Nat := (utf8Enc c).length

/-- One event produced by the wrapped character-stream source: either the
next rune, or a read error; the error kind (a number) distinguishes clean
end-of-file from genuine I/O errors. -/
inductive RuneEv where
  | rn (c : Int)
  | rerr (kind : Nat)
deriving Repr, DecidableEq

/-- A wrapped character-stream source: the list of its future read results.
An exhausted source keeps returning the clean end-of-file error (kind 0),
like strings.Reader / bufio.Reader after EOF. -/
abbrev Src : Type := List RuneEv

/-- One ReadRune call on the raw source: returns (rune, size, error kind)
and the advanced source.  Error kind 0 at exhaustion models io.EOF. -/
def readSrc : Src → (Int × Nat × Option Nat) × Src
  | [] => ((0, 0, some 0), [])
  | (RuneEv.rn c) :: t => ((c, utf8Len c, none), t)
  | (RuneEv.rerr k) :: t => ((0, 0, some k), t)

/-- The Reger proxy state: the wrapped source and the internal byte buffer
(src/reger.go, type Reger). -/
structure Reger where
  src : Src
  buf : List Nat
deriving Repr, DecidableEq

/-- Transcription of Reger.ReadRune (src/reger.go lines 25-32): read one
rune from the wrapped source; on any error return rune 0, size 0 and a nil
error, leaving the buffer untouched; on success append the rune's UTF-8
encoding to the buffer. -/
def Reger.ReadRune (x : Reger) : (Int × Nat × Option Nat) × Reger :=
  let ((r, size, err), src') := readSrc x.src
  match err with
  | some _ => ((0, 0, none), { x with src := src' })
  | none => ((r, size, none), { src := src', buf := x.buf ++ utf8Enc r })

/-- One instruction of the compiled engine program (go regexp/syntax Prog),
restricted to the forms the claims' patterns compile to. -/
inductive Inst where
  | fail
  | rune1 (c : Int) (out : Nat)
  | alt (out arg : Nat)
  | capture (slot : Nat) (out : Nat)
  | imatch
deriving Repr, DecidableEq

/-- A compiled pattern: instruction list (pc 0 is the fail instruction),
start pc, number of capture slots (prog.NumCap), and number of
parenthesised subexpressions (re.numSubexp, used by pad). -/
structure Prog where
  insts : List Inst
  start : Nat
  numCap : Nat
  numSub : Nat
deriving Repr, DecidableEq

/-- Instruction at a pc (out-of-range pcs behave as fail). -/
def getInst (p : Prog) (pc : Nat) : Inst := p.insts.getD pc Inst.fail

/-- A thread queue: dense list of (pc, optional thread capture slots).
Entries with no thread only mark the pc as present (dedup), as in Go's
sparse queue. -/
abbrev Queue : Type := List (Nat × Option (List Int))

/-- Whether a pc is already recorded in the queue. -/
def hasPc (q : Queue) (pc : Nat) : Bool := q.any (fun e => e.1 == pc)

/-- Transcription of machine.add (regexp/exec.go): record pc, walk
empty-width instructions (alternation first branch before second, capture
slots saved and restored), and enqueue runnable threads with a copy of the
capture slots.  Fuel bounds the walk; prog size + 1 always suffices since
each step records a new pc. -/
def addq (p : Prog) : Nat → Queue → Nat → Nat → List Int → Queue
  | 0, q, _, _, _ => q
  | fuel + 1, q, pc, pos, cap =>
    if pc = 0 then q
    else if hasPc q pc then q
    else
      match getInst p pc with
      | Inst.fail => q ++ [(pc, none)]
      | Inst.alt out arg =>
        let q1 := addq p fuel (q ++ [(pc, none)]) out pos cap
        addq p fuel q1 arg pos cap
      | Inst.capture slot out =>
        if slot < cap.length then
          addq p fuel (q ++ [(pc, none)]) out pos (cap.set slot (pos : Int))
        else
          addq p fuel (q ++ [(pc, none)]) out pos cap
      | Inst.rune1 _ _ => q ++ [(pc, some cap)]
      | Inst.imatch => q ++ [(pc, some cap)]

/-- Transcription of machine.step (regexp/exec.go) in first-match (not
longest) mode: run every thread of the current queue on rune c; a rune
instruction that matches advances the thread into the next queue at
nextPos; a match instruction records the capture slots (end set to pos)
into matchcap and cuts off all lower-priority threads.  Returns the next
queue, the matched flag and matchcap. -/
def stepq (p : Prog) : List (Nat × Option (List Int)) → Queue → Nat → Nat →
    Int → Bool → List Int → Queue × Bool × List Int
  | [], nextq, _, _, _, matched, mcap => (nextq, matched, mcap)
  | (pc, oth) :: rest, nextq, pos, nextPos, c, matched, mcap =>
    match oth with
    | none => stepq p rest nextq pos nextPos c matched mcap
    | some cap =>
      match getInst p pc with
      | Inst.imatch => (nextq, true, cap.set 1 (pos : Int))
      | Inst.rune1 ch out =>
        let nextq' := if c = ch then addq p (p.insts.length + 1) nextq out nextPos cap
                      else nextq
        stepq p rest nextq' pos nextPos c matched mcap
      | _ => stepq p rest nextq pos nextPos c matched mcap

/-- State of Go's inputReader wrapping a RuneReader of state type ρ:
the reader, the at-end flag and the number of bytes handed out so far. -/
structure IState (ρ : Type) where
  rd : ρ
  atEOT : Bool
  ipos : Nat

/-- A RuneReader over state type ρ: one read returns (rune, size, error)
and the advanced state. -/
abbrev ReadFn (ρ : Type) : Type := ρ → (Int × Nat × Option Nat) × ρ

/-- Transcription of inputReader.step (regexp/regexp.go): at the current
position, pull one rune from the reader; an error sets the at-end flag and
yields endOfText (-1, width 0); otherwise advance by the rune's size.  Any
other position (or at-end) yields endOfText without touching the reader. -/
def istep {ρ : Type} (rr : ReadFn ρ) (ist : IState ρ) (pos : Nat) :
    (Int × Nat) × IState ρ :=
  if ist.atEOT = false ∧ pos = ist.ipos then
    let ((r, w, err), rd') := rr ist.rd
    match err with
    | some _ => ((-1, 0), { ist with rd := rd', atEOT := true })
    | none => ((r, w), { ist with rd := rd', ipos := ist.ipos + w })
  else ((-1, 0), ist)

/-- Seeding of a new start thread (machine.match: when not yet matched,
record the current position in slot 0 of matchcap and add the start pc);
returns the seeded queue and the matchcap to use. -/
def seedq (p : Prog) (pos : Nat) (runq : Queue) (matched : Bool)
    (mcap : List Int) : Queue × List Int :=
  if matched then (runq, mcap)
  else (addq p (p.insts.length + 1) runq p.start pos (mcap.set 0 (pos : Int)),
    mcap.set 0 (pos : Int))

/-- The loop's lookahead read: one more rune is pulled unless the current
lookahead rune is already endOfText. -/
def lookq {ρ : Type} (rr : ReadFn ρ) (ist : IState ρ) (pos w w1 : Nat)
    (r1 : Int) : (Int × Nat) × IState ρ :=
  if r1 ≠ -1 then istep rr ist (pos + w + w1) else ((-1, 0), ist)

/-- Transcription of the main loop of machine.match (regexp/exec.go) for an
unanchored program in first-match mode over a reader input: break when the
queue is empty after a match; otherwise (until matched) seed a new start
thread at the current position, step all threads on the current rune, break
on a zero-width read, else advance and read one more rune of lookahead. -/
def mloop {ρ : Type} (rr : ReadFn ρ) (p : Prog) : Nat → Nat → Int → Nat →
    Int → Nat → Queue → Bool → List Int → IState ρ →
    (Option (List Int) × IState ρ)
  | 0, _, _, _, _, _, _, matched, mcap, ist =>
    (if matched then some mcap else none, ist)
  | fuel + 1, pos, r, w, r1, w1, runq, matched, mcap, ist =>
    if runq.isEmpty ∧ matched then (some mcap, ist)
    else
      if w = 0 then
        (if (stepq p (seedq p pos runq matched mcap).1 [] pos (pos + w) r
              matched (seedq p pos runq matched mcap).2).2.1
         then some (stepq p (seedq p pos runq matched mcap).1 [] pos (pos + w)
              r matched (seedq p pos runq matched mcap).2).2.2
         else none, ist)
      else
        mloop rr p fuel (pos + w) r1 w1
          (lookq rr ist pos w w1 r1).1.1 (lookq rr ist pos w w1 r1).1.2
          (stepq p (seedq p pos runq matched mcap).1 [] pos (pos + w) r
            matched (seedq p pos runq matched mcap).2).1
          (stepq p (seedq p pos runq matched mcap).1 [] pos (pos + w) r
            matched (seedq p pos runq matched mcap).2).2.1
          (stepq p (seedq p pos runq matched mcap).1 [] pos (pos + w) r
            matched (seedq p pos runq matched mcap).2).2.2
          (lookq rr ist pos w w1 r1).2

/-- Transcription of machine.match set-up (regexp/exec.go): initialise the
capture slots to -1, read the first rune at position 0 and (unless it is
already endOfText) one rune of lookahead at position 0 + width, then run
the loop.  Returns the capture slots on a match, and the final reader
state. -/
def mmatch {ρ : Type} (rr : ReadFn ρ) (p : Prog) (ncap : Nat) (fuel : Nat)
    (rd : ρ) : Option (List Int) × ρ :=
  ((mloop rr p fuel 0
      (istep rr ⟨rd, false, 0⟩ 0).1.1 (istep rr ⟨rd, false, 0⟩ 0).1.2
      (lookq rr (istep rr ⟨rd, false, 0⟩ 0).2 0
        (istep rr ⟨rd, false, 0⟩ 0).1.2 0 (istep rr ⟨rd, false, 0⟩ 0).1.1).1.1
      (lookq rr (istep rr ⟨rd, false, 0⟩ 0).2 0
        (istep rr ⟨rd, false, 0⟩ 0).1.2 0 (istep rr ⟨rd, false, 0⟩ 0).1.1).1.2
      [] false (List.replicate ncap (-1))
      (lookq rr (istep rr ⟨rd, false, 0⟩ 0).2 0
        (istep rr ⟨rd, false, 0⟩ 0).1.2 0 (istep rr ⟨rd, false, 0⟩ 0).1.1).2).1,
   (mloop rr p fuel 0
      (istep rr ⟨rd, false, 0⟩ 0).1.1 (istep rr ⟨rd, false, 0⟩ 0).1.2
      (lookq rr (istep rr ⟨rd, false, 0⟩ 0).2 0
        (istep rr ⟨rd, false, 0⟩ 0).1.2 0 (istep rr ⟨rd, false, 0⟩ 0).1.1).1.1
      (lookq rr (istep rr ⟨rd, false, 0⟩ 0).2 0
        (istep rr ⟨rd, false, 0⟩ 0).1.2 0 (istep rr ⟨rd, false, 0⟩ 0).1.1).1.2
      [] false (List.replicate ncap (-1))
      (lookq rr (istep rr ⟨rd, false, 0⟩ 0).2 0
        (istep rr ⟨rd, false, 0⟩ 0).1.2 0 (istep rr ⟨rd, false, 0⟩ 0).1.1).2).2.rd)

/-- Engine fuel that always suffices for one streaming match over a source
with n pending events (each loop iteration past the second consumes one). -/
def srcFuel (n : Nat) : Nat := n + 4

/-- Transcription of Regexp.FindReaderIndex (go regexp): run the machine
with 2 capture slots (whole match only) over the given reader and return
the first two slots, or nil when no match; the reader is left wherever the
scan stopped. -/
def FindReaderIndexOn {ρ : Type} (rr : ReadFn ρ) (n : Nat) (p : Prog)
    (rd : ρ) : Option (List Int) × ρ :=
  let res := mmatch rr p 2 (srcFuel n) rd
  (res.1.map (fun a => a.take 2), res.2)

/-- Transcription of Regexp.pad (go regexp): extend the capture list with
-1 entries up to 2 per group plus the whole match. -/
def padCaps (p : Prog) (a : List Int) : List Int :=
  a ++ List.replicate ((1 + p.numSub) * 2 - a.length) (-1)

/-- Transcription of Regexp.FindReaderSubmatchIndex (go regexp): run the
machine with all capture slots and pad the result. -/
def FindReaderSubmatchIndexOn {ρ : Type} (rr : ReadFn ρ) (n : Nat)
    (p : Prog) (rd : ρ) : Option (List Int) × ρ :=
  let res := mmatch rr p p.numCap (srcFuel n) rd
  (res.1.map (padCaps p), res.2)

/-- The engine's streaming find driven through the Reger proxy, as in every
method of src/reger.go (re.FindReaderIndex(r) with r the Reger). -/
def Reger.engineFindIndex (p : Prog) (x : Reger) : Option (List Int) × Reger :=
  FindReaderIndexOn Reger.ReadRune x.src.length p x

/-- The engine's streaming submatch find driven through the Reger proxy. -/
def Reger.engineFindSubmatchIndex (p : Prog) (x : Reger) :
    Option (List Int) × Reger :=
  FindReaderSubmatchIndexOn Reger.ReadRune x.src.length p x

/-- Go slice expression b[lo:hi] on a byte slice: fails (panics) unless
0 ≤ lo ≤ hi ≤ length. -/
def sliceRange (b : List Nat) (lo hi : Int) : Option (List Nat) :=
  if 0 ≤ lo ∧ lo ≤ hi ∧ hi ≤ (b.length : Int) then
    some ((b.take hi.toNat).drop lo.toNat)
  else none

/-- Consecutive (start,end) pairs of an index list sliced out of a buffer,
as the loops of FindReaderSubmatch / FindReaderAllSubmatch do; none as soon
as one slice expression would panic. -/
def slicePairs (b : List Nat) : List Int → Option (List (List Nat))
  | [] => some []
  | lo :: hi :: rest =>
    match sliceRange b lo hi, slicePairs b rest with
    | some s, some out => some (s :: out)
    | _, _ => none
  | _ :: [] => none

/-- Transcription of Reger.FindReader (src/reger.go lines 61-68): reset the
buffer, run the engine once, and slice the buffer at the returned pair. -/
def Reger.FindReader (p : Prog) (x : Reger) :
    GoRes (Option (List Nat) × Reger) :=
  let x0 : Reger := { x with buf := [] }
  let res := Reger.engineFindIndex p x0
  match res.1 with
  | none => GoRes.ok (none, res.2)
  | some idxs =>
    match sliceRange res.2.buf (idxs.getD 0 0) (idxs.getD 1 0) with
    | some b => GoRes.ok (some b, res.2)
    | none => GoRes.panic

/-- Transcription of Reger.FindReaderString (src/reger.go): empty string
when there is no match. -/
def Reger.FindReaderString (p : Prog) (x : Reger) :
    GoRes (List Nat × Reger) :=
  match Reger.FindReader p x with
  | GoRes.ok (none, x') => GoRes.ok ([], x')
  | GoRes.ok (some b, x') => GoRes.ok (b, x')
  | GoRes.panic => GoRes.panic
  | GoRes.diverge => GoRes.diverge

/-- Transcription of Reger.FindReaderSubmatch (src/reger.go lines 82-94):
reset the buffer, run the engine submatch find, and slice the buffer at
every consecutive pair of the returned index list. -/
def Reger.FindReaderSubmatch (p : Prog) (x : Reger) :
    GoRes (GoList (List Nat) × Reger) :=
  let x0 : Reger := { x with buf := [] }
  let res := Reger.engineFindSubmatchIndex p x0
  match res.1 with
  | none => GoRes.ok (none, res.2)
  | some idxs =>
    match slicePairs res.2.buf idxs with
    | some out => GoRes.ok (some out, res.2)
    | none => GoRes.panic

/-- Transcription of Reger.FindReaderStringSubmatch (src/reger.go): convert
each submatch byte slice to a string (the nil-entry branch of the source is
unreachable since slice expressions are never nil). -/
def Reger.FindReaderStringSubmatch (p : Prog) (x : Reger) :
    GoRes (GoList (List Nat) × Reger) :=
  match Reger.FindReaderSubmatch p x with
  | GoRes.ok (none, x') => GoRes.ok (none, x')
  | GoRes.ok (some bs, x') => GoRes.ok (some bs, x')
  | GoRes.panic => GoRes.panic
  | GoRes.diverge => GoRes.diverge

/-- The loop of Reger.FindReaderAllIndex (src/reger.go lines 115-129):
remember the buffer length, run the engine, stop on nil, else shift both
offsets by the remembered length and append. -/
def allIdxLoop (p : Prog) : Nat → Reger → GoList (List Int) →
    GoRes (GoList (List Int) × Reger)
  | 0, _, _ => GoRes.diverge
  | fuel + 1, x, out =>
    let prevlen := x.buf.length
    let res := Reger.engineFindIndex p x
    match res.1 with
    | none => GoRes.ok (out, res.2)
    | some idxs =>
      let shifted : List Int :=
        [idxs.getD 0 0 + (prevlen : Int), idxs.getD 1 0 + (prevlen : Int)]
      allIdxLoop p fuel res.2 (goAppend out shifted)

/-- Transcription of Reger.FindReaderAllIndex (src/reger.go lines 115-129):
reset the buffer once, then iterate; fuel exhaustion reports divergence. -/
def Reger.FindReaderAllIndex (fuel : Nat) (p : Prog) (x : Reger) :
    GoRes (GoList (List Int) × Reger) :=
  allIdxLoop p fuel { x with buf := [] } none

/-- Transcription of Reger.FindReaderAll (src/reger.go lines 134-148):
derive byte slices from the index list and the accumulated buffer (the
nil-entry branch of the source loop is unreachable). -/
def Reger.FindReaderAll (fuel : Nat) (p : Prog) (x : Reger) :
    GoRes (GoList (List Nat) × Reger) :=
  match Reger.FindReaderAllIndex fuel p x with
  | GoRes.ok (none, x') => GoRes.ok (none, x')
  | GoRes.ok (some idxs, x') =>
    match slicePairs x'.buf (idxs.flatMap (fun l => [l.getD 0 0, l.getD 1 0])) with
    | some out => GoRes.ok (some out, x')
    | none => GoRes.panic
  | GoRes.panic => GoRes.panic
  | GoRes.diverge => GoRes.diverge

/-- The loop of Reger.FindReaderAllString (src/reger.go lines 152-158):
repeatedly call FindReaderStringSubmatch (which resets the buffer at the
start of each call) and append element 0 until it returns nil. -/
def allStringLoop (p : Prog) : Nat → Reger → GoList (List Nat) →
    GoRes (GoList (List Nat) × Reger)
  | 0, _, _ => GoRes.diverge
  | fuel + 1, x, out =>
    match Reger.FindReaderStringSubmatch p x with
    | GoRes.ok (none, x') => GoRes.ok (out, x')
    | GoRes.ok (some ss, x') => allStringLoop p fuel x' (goAppend out (ss.getD 0 []))
    | GoRes.panic => GoRes.panic
    | GoRes.diverge => GoRes.diverge

/-- Transcription of Reger.FindReaderAllString (src/reger.go lines 152-158). -/
def Reger.FindReaderAllString (fuel : Nat) (p : Prog) (x : Reger) :
    GoRes (GoList (List Nat) × Reger) :=
  allStringLoop p fuel x none

/-- The loop of Reger.FindReaderAllSubmatchIndex (src/reger.go lines
162-177): remember the buffer length, run the engine submatch find, stop on
nil, else shift every offset of the result by the remembered length. -/
def allSubIdxLoop (p : Prog) : Nat → Reger → GoList (List Int) →
    GoRes (GoList (List Int) × Reger)
  | 0, _, _ => GoRes.diverge
  | fuel + 1, x, out =>
    let prevlen := x.buf.length
    let res := Reger.engineFindSubmatchIndex p x
    match res.1 with
    | none => GoRes.ok (out, res.2)
    | some idxs =>
      allSubIdxLoop p fuel res.2 (goAppend out (idxs.map (fun v => v + (prevlen : Int))))

/-- Transcription of Reger.FindReaderAllSubmatchIndex (src/reger.go lines
162-177): reset the buffer once, then iterate. -/
def Reger.FindReaderAllSubmatchIndex (fuel : Nat) (p : Prog) (x : Reger) :
    GoRes (GoList (List Int) × Reger) :=
  allSubIdxLoop p fuel { x with buf := [] } none

/-- Per-match submatch slicing for each index set of a find-all result;
none as soon as one slice expression would panic. -/
def sliceSets (b : List Nat) : List (List Int) → Option (List (List (List Nat)))
  | [] => some []
  | idxset :: rest =>
    match slicePairs b idxset, sliceSets b rest with
    | some bset, some out => some (bset :: out)
    | _, _ => none

/-- Transcription of Reger.FindReaderAllSubmatch (src/reger.go lines
183-203): derive per-match submatch slices from the index lists and the
accumulated buffer (the nil-entry branch is unreachable). -/
def Reger.FindReaderAllSubmatch (fuel : Nat) (p : Prog) (x : Reger) :
    GoRes (GoList (List (List Nat)) × Reger) :=
  match Reger.FindReaderAllSubmatchIndex fuel p x with
  | GoRes.ok (none, x') => GoRes.ok (none, x')
  | GoRes.ok (some idxs, x') =>
    match sliceSets x'.buf idxs with
    | some out => GoRes.ok (some out, x')
    | none => GoRes.panic
  | GoRes.panic => GoRes.panic
  | GoRes.diverge => GoRes.diverge

/-- The loop of Reger.FindReaderAllStringSubmatch (src/reger.go lines
207-213): repeatedly call FindReaderStringSubmatch, appending each whole
result, until it returns nil. -/
def allStringSubLoop (p : Prog) : Nat → Reger → GoList (List (List Nat)) →
    GoRes (GoList (List (List Nat)) × Reger)
  | 0, _, _ => GoRes.diverge
  | fuel + 1, x, out =>
    match Reger.FindReaderStringSubmatch p x with
    | GoRes.ok (none, x') => GoRes.ok (out, x')
    | GoRes.ok (some ss, x') => allStringSubLoop p fuel x' (goAppend out ss)
    | GoRes.panic => GoRes.panic
    | GoRes.diverge => GoRes.diverge

/-- Transcription of Reger.FindReaderAllStringSubmatch (src/reger.go lines
207-213). -/
def Reger.FindReaderAllStringSubmatch (fuel : Nat) (p : Prog) (x : Reger) :
    GoRes (GoList (List (List Nat)) × Reger) :=
  allStringSubLoop p fuel x none

/-- The loop of FindRuneReaderAllIndex (src/allidx.go lines 11-26): the
engine reads the caller's reader directly; a running byte total is advanced
by each raw match end, and both offsets are shifted by its previous value. -/
def runeAllIdxLoop (p : Prog) : Nat → Src → Int → GoList (List Int) →
    GoRes (GoList (List Int) × Src)
  | 0, _, _, _ => GoRes.diverge
  | fuel + 1, s, curlen, out =>
    let prevlen := curlen
    let res := FindReaderIndexOn readSrc s.length p s
    match res.1 with
    | none => GoRes.ok (out, res.2)
    | some idxs =>
      let curlen' := curlen + idxs.getD 1 0
      let shifted : List Int := [idxs.getD 0 0 + prevlen, idxs.getD 1 0 + prevlen]
      runeAllIdxLoop p fuel res.2 curlen' (goAppend out shifted)

/-- Transcription of FindRuneReaderAllIndex (src/allidx.go lines 11-26). -/
def FindRuneReaderAllIndex (fuel : Nat) (p : Prog) (s : Src) :
    GoRes (GoList (List Int) × Src) :=
  runeAllIdxLoop p fuel s 0 none

/-- The loop of FindRuneReaderAllSubmatchIndex (src/allidx.go lines 31-47):
as above but every offset of the submatch index list is shifted. -/
def runeAllSubIdxLoop (p : Prog) : Nat → Src → Int → GoList (List Int) →
    GoRes (GoList (List Int) × Src)
  | 0, _, _, _ => GoRes.diverge
  | fuel + 1, s, curlen, out =>
    let prevlen := curlen
    let res := FindReaderSubmatchIndexOn readSrc s.length p s
    match res.1 with
    | none => GoRes.ok (out, res.2)
    | some idxs =>
      let curlen' := curlen + idxs.getD 1 0
      runeAllSubIdxLoop p fuel res.2 curlen'
        (goAppend out (idxs.map (fun v => v + prevlen)))

/-- Transcription of FindRuneReaderAllSubmatchIndex (src/allidx.go lines
31-47). -/
def FindRuneReaderAllSubmatchIndex (fuel : Nat) (p : Prog) (s : Src) :
    GoRes (GoList (List Int) × Src) :=
  runeAllSubIdxLoop p fuel s 0 none

/-- Byte length of a rune sequence. -/
def byteLen (l : List Int) : Nat := (l.map utf8Len).sum

/-- Runes of a rune sequence after a byte offset (offsets in this
development always fall on rune boundaries). -/
def dropRunes : List Int → Nat → List Int
  | l, 0 => l
  | [], _ => []
  | c :: t, pos => dropRunes t (pos - utf8Len c)

/-- A raw (error-propagating) source holding the given runes, as a
strings.Reader over the text would present them. -/
def srcOfRunes (l : List Int) : Src := l.map RuneEv.rn

/-- Go string slice s[lo:hi] on the UTF-8 bytes of a rune sequence (all
uses are within bounds). -/
def strSlice (s : List Int) (lo hi : Int) : List Nat :=
  ((s.flatMap utf8Enc).take hi.toNat).drop lo.toNat

/-- Transcription of Regexp.allMatches driving FindAllString with n = -1
(go regexp): scan from the current byte position, deliver each match text,
skip an empty match sitting at the previous match end, and advance past
the end of the match (or one rune after an empty match).  The machine is
run on the remaining suffix and its offsets shifted to absolute ones,
which agrees with Go's absolute-position scan for these programs. -/
def goAllMatchesLoop (p : Prog) : Nat → List Int → Nat → Int →
    GoList (List Nat) → GoList (List Nat)
  | 0, _, _, _, out => out
  | fuel + 1, s, pos, prevMatchEnd, out =>
    if pos > byteLen s then out
    else
      let rest := dropRunes s pos
      let res := mmatch readSrc p p.numCap (srcFuel rest.length) (srcOfRunes rest)
      match res.1 with
      | none => out
      | some m0 =>
        let m : List Int := m0.map (fun v => if v = -1 then -1 else v + (pos : Int))
        let s0 := m.getD 0 0
        let s1 := m.getD 1 0
        if s1 = s0 then
          let accept := decide (s0 ≠ prevMatchEnd)
          let w := match dropRunes s pos with
            | [] => 0
            | c :: _ => utf8Len c
          let pos' := if 0 < w then pos + w else byteLen s + 1
          let out' := if accept then goAppend out (strSlice s s0 s1) else out
          goAllMatchesLoop p fuel s pos' s1 out'
        else
          let out' := goAppend out (strSlice s s0 s1)
          goAllMatchesLoop p fuel s s1.toNat s1 out'

/-- Modelled from the spec: the engine's whole-string find-all operation
(Go Regexp.FindAllString with n = -1) over the fully materialized input,
used as the comparison side of the streaming-equals-materialized claim. -/
def goFindAllString (p : Prog) (s : List Int) : GoList (List Nat) :=
  goAllMatchesLoop p (byteLen s + 2) s 0 (-1) none

/-- The pattern a compiled as by Go regexp/syntax (rune 97 then match). -/
def progA : Prog := ⟨[Inst.fail, Inst.rune1 97 2, Inst.imatch], 1, 2, 0⟩

/-- The pattern x compiled as by Go regexp/syntax. -/
def progX : Prog := ⟨[Inst.fail, Inst.rune1 120 2, Inst.imatch], 1, 2, 0⟩

/-- The pattern a* compiled as by Go regexp/syntax: a greedy loop whose
alternation prefers another rune over exiting to match. -/
def progAStar : Prog :=
  ⟨[Inst.fail, Inst.rune1 97 2, Inst.alt 1 3, Inst.imatch], 2, 2, 0⟩

/-- The pattern ab compiled as by Go regexp/syntax. -/
def progAB : Prog :=
  ⟨[Inst.fail, Inst.rune1 97 2, Inst.rune1 98 3, Inst.imatch], 1, 2, 0⟩

/-- The pattern a(b)? compiled as by Go regexp/syntax: after the rune a, a
greedy alternation preferring the captured branch (capture slot 2, rune b,
capture slot 3) over going straight to match. -/
def progABopt : Prog :=
  ⟨[Inst.fail, Inst.rune1 97 2, Inst.alt 3 6, Inst.capture 2 4,
    Inst.rune1 98 5, Inst.capture 3 6, Inst.imatch], 1, 4, 1⟩

/-- Rune sequence (code points) of a string. -/
def runesOf (s : String) : List Int := s.data.map (fun c => (c.toNat : Int))

/-- UTF-8 bytes of a string. -/
def bytesOf (s : String) : List Nat := (runesOf s).flatMap utf8Enc

/-- A wrapped source that yields the runes of a string and then clean
end-of-file, like strings.NewReader. -/
def ofStr (s : String) : Src := srcOfRunes (runesOf s)

/-- A fresh Reger over a string source, as built by NewReger. -/
def mkReger (s : String) : Reger := ⟨ofStr s, []⟩

/-- The pattern of the repository's tests, apple (sp|c)ider, compiled as by
Go regexp/syntax (literal runes, a capture around the alternation that
tries sp before c). -/
def progApple : Prog :=
  ⟨[Inst.fail, Inst.rune1 97 2, Inst.rune1 112 3, Inst.rune1 112 4,
    Inst.rune1 108 5, Inst.rune1 101 6, Inst.rune1 32 7, Inst.capture 2 8,
    Inst.alt 9 11, Inst.rune1 115 10, Inst.rune1 112 12, Inst.rune1 99 12,
    Inst.capture 3 13, Inst.rune1 105 14, Inst.rune1 100 15,
    Inst.rune1 101 16, Inst.rune1 114 17, Inst.imatch], 1, 4, 1⟩

/-- The raw (priorLength, engine result) trace of the find-all submatch
loop: the buffer length at the start of each iteration paired with the
engine's unshifted index list for that iteration. -/
def subIdxTrace (p : Prog) : Nat → Reger → List (Int × List Int)
  | 0, _ => []
  | fuel + 1, x =>
    let res := Reger.engineFindSubmatchIndex p x
    match res.1 with
    | none => []
    | some idxs => ((x.buf.length : Int), idxs) :: subIdxTrace p fuel res.2

/-- The raw (priorLength, engine result) trace of the find-all index loop. -/
def idxTrace (p : Prog) : Nat → Reger → List (Int × List Int)
  | 0, _ => []
  | fuel + 1, x =>
    let res := Reger.engineFindIndex p x
    match res.1 with
    | none => []
    | some idxs => ((x.buf.length : Int), idxs) :: idxTrace p fuel res.2

/-- Shift every offset of a raw engine result by its priorLength. -/
def shiftAll (pr : Int × List Int) : List Int := pr.2.map (fun v => v + pr.1)

/-- Shift the two offsets of a raw whole-match result by its priorLength. -/
def shiftPair (pr : Int × List Int) : List Int :=
  [pr.2.getD 0 0 + pr.1, pr.2.getD 1 0 + pr.1]

/-- A well-formed whole-match entry: nonnegative start, start at most end. -/
def entryOk (e : List Int) : Prop :=
  0 ≤ e.getD 0 0 ∧ e.getD 0 0 ≤ e.getD 1 0

/-- Successive entries do not overlap and appear in stream order: each
entry's start is at least the previous entry's end. -/
def entriesChained (l : List (List Int)) : Prop :=
  List.Chain' (fun a b => a.getD 1 0 ≤ b.getD 0 0) l

/-- Normalisation of a source's error kinds: every read error becomes the
clean end-of-file error (kind 0), the runes are untouched.  Two sources
equal up to eraseKinds differ only in which error each failing read
reports. -/
def eraseKinds (s : Src) : Src :=
  s.map (fun ev => match ev with
    | RuneEv.rn c => RuneEv.rn c
    | RuneEv.rerr _ => RuneEv.rerr 0)

/-- A Reger state with its source's error kinds normalised. -/
def eraseReger (x : Reger) : Reger := ⟨eraseKinds x.src, x.buf⟩

/-- An input-layer state with its reader's error kinds normalised. -/
def eraseIState (ist : IState Reger) : IState Reger :=
  ⟨eraseReger ist.rd, ist.atEOT, ist.ipos⟩

/-- A find-operation result with the final state's error kinds normalised;
the returned value, a panic, or divergence are untouched. -/
def eraseStRes {α : Type} : GoRes (α × Reger) → GoRes (α × Reger)
  | GoRes.ok (a, x) => GoRes.ok (a, eraseReger x)
  | GoRes.panic => GoRes.panic
  | GoRes.diverge => GoRes.diverge

/-- Invariant of one thread capture list in the machine at scan position
pos with ncap slots: right length, nonnegative start slot, and every
recorded offset at most the current position. -/
def capOk (ncap pos : Nat) (cap : List Int) : Prop :=
  cap.length = ncap ∧ 0 ≤ cap.getD 0 0 ∧ ∀ v ∈ cap, v ≤ (pos : Int)

/-- Invariant of a thread queue: every runnable thread's captures satisfy
capOk at the given position. -/
def qOk (ncap pos : Nat) (q : Queue) : Prop :=
  ∀ e ∈ q, ∀ cap, e.2 = some cap → capOk ncap pos cap

/-- Invariant of the matchcap template: every entry (possibly -1) is at
most the current position, and the length is ncap. -/
def tplOk (ncap pos : Nat) (mcap : List Int) : Prop :=
  mcap.length = ncap ∧ ∀ v ∈ mcap, v ≤ (pos : Int)

/-- Invariant of a recorded match: nonnegative start, start at most end,
end at most the current position. -/
def matchOk (pos : Nat) (mcap : List Int) : Prop :=
  0 ≤ mcap.getD 0 0 ∧ mcap.getD 0 0 ≤ mcap.getD 1 0 ∧
    mcap.getD 1 0 ≤ (pos : Int)

/-- Invariant tying the proxy buffer to the engine's read count: the buffer
extends its content at the start of the engine call by exactly as many
bytes as the input layer has handed out. -/
def bufInv (b0 : List Nat) (ist : IState Reger) : Prop :=
  ∃ δ, ist.rd.buf = b0 ++ δ ∧ δ.length = ist.ipos

/-- Fidelity check: the model reproduces TestFindReaderAllString of the
repository (input and expected output of src's test file). -/
theorem model_matches_repo_test_allstring :
    Reger.FindReaderAllString 90 progApple
      (mkReger "here is some apple cider, and there is an apple spider") =
    GoRes.ok (some [bytesOf "apple cider", bytesOf "apple spider"],
      ⟨[], []⟩) := by
  decide

/-- Fidelity check: the model reproduces TestFindReaderAllStringSubmatch of
the repository. -/
theorem model_matches_repo_test_allstringsubmatch :
    Reger.FindReaderAllStringSubmatch 90 progApple
      (mkReger "here is some apple cider, and there is an apple spider") =
    GoRes.ok (some [[bytesOf "apple cider", bytesOf "c"],
      [bytesOf "apple spider", bytesOf "sp"]], ⟨[], []⟩) := by
  decide

/-- Engine behaviour on the exhausted proxy for the nullable pattern a*:
the engine still reports the empty match [0,0] and the proxy state does not
change, so the find-all loop can never observe a nil result. -/
theorem engine_astar_exhausted (b : List Nat) :
    Reger.engineFindIndex progAStar ⟨[], b⟩ = (some [0, 0], ⟨[], b⟩) := by
  unfold Reger.engineFindIndex FindReaderIndexOn srcFuel mmatch
  rfl

/-- The find-all index loop at the exhausted proxy state diverges for a*,
whatever fuel and accumulator it is given. -/
theorem allIdxLoop_astar_diverges (b : List Nat) :
    ∀ fuel out, allIdxLoop progAStar fuel ⟨[], b⟩ out = GoRes.diverge := by
  intro fuel
  induction fuel with
  | zero => intro out; rfl
  | succ n ih =>
    intro out
    simp only [allIdxLoop, engine_astar_exhausted]
    exact ih _

/-- C2: the claim says the find-all repetition loop terminates once the
stream is exhausted, in particular that FindReaderAllIndex with pattern a*
on input bb terminates.  The code does not: on the exhausted stream the
engine keeps returning the empty match [0,0] (a nullable pattern matches
the empty suffix, and Reger.ReadRune never surfaces an error), the loop
never sees the nil that is its only exit, and it runs forever — modelled
here as diverging for every fuel bound. -/
theorem c2_find_all_zero_width_diverges :
    ∀ fuel, Reger.FindReaderAllIndex fuel progAStar (mkReger "bb") =
      GoRes.diverge := by
  intro fuel
  cases fuel with
  | zero => rfl
  | succ n =>
    have h : Reger.FindReaderAllIndex (n + 1) progAStar (mkReger "bb") =
        allIdxLoop progAStar n ⟨[], [98, 98]⟩ (some [[0, 0]]) := by
      show allIdxLoop progAStar (n + 1) ⟨ofStr "bb", []⟩ none =
        allIdxLoop progAStar n ⟨[], [98, 98]⟩ (some [[0, 0]])
      rfl
    rw [h, allIdxLoop_astar_diverges]

/-- C3 counterexample: the claim says FindReaderAllString always equals the
engine's whole-string find-all on the materialized input.  For pattern a on
input aa the streaming adapter returns one match but the whole-string
operation returns two: the streaming engine call reads one rune of
lookahead past the first match end, consuming the second a, which the next
iteration can therefore never see. -/
theorem c3_streaming_differs_from_whole_string :
    Reger.FindReaderAllString 20 progA (mkReger "aa") =
      GoRes.ok (some [bytesOf "a"], ⟨[], []⟩) ∧
    goFindAllString progA (runesOf "aa") =
      some [bytesOf "a", bytesOf "a"] ∧
    (some [bytesOf "a"] : GoList (List Nat)) ≠
      some [bytesOf "a", bytesOf "a"] := by
  refine ⟨by decide, by decide, by decide⟩

/-- C3 amended: the streaming find-all equals the whole-string find-all
when every later match begins after the bytes the previous engine call
consumed (matches separated by at least the engine's lookahead), as on
pattern ab against input with three-space gaps — and on the repository's
own test input. -/
theorem c3_streaming_equals_whole_string_when_separated :
    Reger.FindReaderAllString 30 progAB (mkReger "ab   ab") =
      GoRes.ok (goFindAllString progAB (runesOf "ab   ab"), ⟨[], []⟩) ∧
    goFindAllString progAB (runesOf "ab   ab") =
      some [bytesOf "ab", bytesOf "ab"] := by
  refine ⟨by decide, by decide⟩

/-- C4: the claim says a FindReaderSubmatch call whose match has a
non-participating capturing group completes and reports the group as
absent.  The code instead panics: the engine reports the group's range as
the pair -1,-1, and the slice expression buf[-1:-1] is a bounds violation.
Failing input: pattern a(b)?, input a; the engine result (second conjunct)
shows the -1 sentinels that reach the slicing loop. -/
theorem c4_submatch_panics_on_absent_group :
    Reger.FindReaderSubmatch progABopt (mkReger "a") = GoRes.panic ∧
    Reger.engineFindSubmatchIndex progABopt (mkReger "a") =
      (some [0, 1, -1, -1], ⟨[], bytesOf "a"⟩) := by
  refine ⟨by decide, by decide⟩

/-- C5 counterexample: the claim says that with zero matches
FindReaderAllIndex returns an empty list distinct from the absent value.
On input abc with pattern x it returns the nil slice itself (the absent
value, exactly as its doc comment promises), not a non-nil empty list. -/
theorem c5_all_index_returns_nil_not_empty :
    Reger.FindReaderAllIndex 20 progX (mkReger "abc") =
      GoRes.ok (none, ⟨[], bytesOf "abc"⟩) ∧
    (none : GoList (List Int)) ≠ some [] := by
  refine ⟨by decide, by decide⟩

/-- C5 amended: with zero matches both the single-match FindReader and
FindReaderAllIndex return the absent (nil) value; callers must treat the
absent list as zero matches, not as an error. -/
theorem c5_both_absent_on_zero_matches :
    Reger.FindReader progX (mkReger "abc") =
      GoRes.ok (none, ⟨[], bytesOf "abc"⟩) ∧
    Reger.FindReaderAllIndex 20 progX (mkReger "abc") =
      GoRes.ok (none, ⟨[], bytesOf "abc"⟩) := by
  refine ⟨by decide, by decide⟩

/-- C6 counterexample: the claim says the bufferless FindRuneReaderAllIndex
equals Reger.FindReaderAllIndex on every input.  On pattern a and input
aa  a they differ: the method shifts by the bytes actually in the buffer
(everything the engine consumed, lookahead included), while the standalone
function shifts only by the accumulated raw match ends, so the second
entry is [4,5] for the method but [1,2] for the standalone function. -/
theorem c6_bufferless_differs_from_method :
    Reger.FindReaderAllIndex 20 progA (mkReger "aa  a") =
      GoRes.ok (some [[0, 1], [4, 5]], ⟨[], bytesOf "aa  a"⟩) ∧
    FindRuneReaderAllIndex 20 progA (ofStr "aa  a") =
      GoRes.ok (some [[0, 1], [1, 2]], []) ∧
    (some [[0, 1], [4, 5]] : GoList (List Int)) ≠ some [[0, 1], [1, 2]] := by
  refine ⟨by decide, by decide, by decide⟩

/-- C6 amended: the bufferless variants run the same engine loop but shift
by accumulated raw match ends instead of buffered byte count; the results
coincide while the engine has not read past a match end — in particular on
the first entry, and on single-match inputs such as pattern a against
input a (index and submatch variants alike). -/
theorem c6_bufferless_agrees_when_no_lookahead_lost :
    Reger.FindReaderAllIndex 20 progA (mkReger "a") =
      GoRes.ok (some [[0, 1]], ⟨[], bytesOf "a"⟩) ∧
    FindRuneReaderAllIndex 20 progA (ofStr "a") =
      GoRes.ok (some [[0, 1]], []) ∧
    Reger.FindReaderAllSubmatchIndex 20 progABopt (mkReger "ab") =
      GoRes.ok (some [[0, 2, 1, 2]], ⟨[], bytesOf "ab"⟩) ∧
    FindRuneReaderAllSubmatchIndex 20 progABopt (ofStr "ab") =
      GoRes.ok (some [[0, 2, 1, 2]], []) := by
  refine ⟨by decide, by decide, by decide, by decide⟩

/-- C8 counterexample: the claim says every find-all operation resets the
buffer once at the start and accumulates everything consumed across all
iterations.  FindReaderAllString instead delegates each iteration to the
single-match primitive, which resets the buffer at the start of every
call: on pattern a and input (a space a) the call consumes the entire
three-byte stream (final source empty) yet finishes with an empty buffer. -/
theorem c8_string_find_all_resets_each_iteration :
    Reger.FindReaderAllString 20 progA (mkReger "a a") =
      GoRes.ok (some [bytesOf "a"], ⟨[], []⟩) ∧
    ([] : List Nat) ≠ bytesOf "a a" := by
  refine ⟨by decide, by decide⟩

/-- C8 amended: the index-returning find-all operations
(FindReaderAllIndex, FindReaderAllSubmatchIndex and the byte-slice
wrappers over them) reset the buffer once and accumulate every byte
consumed across iterations — on the same input the final buffer is the
whole consumed stream — while the string-returning find-all operations
(FindReaderAllString, FindReaderAllStringSubmatch) reset the buffer at the
start of every iteration and end with only the bytes of the final
(failing) iteration. -/
theorem c8_index_find_all_accumulates :
    Reger.FindReaderAllIndex 20 progA (mkReger "a a") =
      GoRes.ok (some [[0, 1]], ⟨[], bytesOf "a a"⟩) ∧
    Reger.FindReaderAllString 20 progA (mkReger "a a") =
      GoRes.ok (some [bytesOf "a"], ⟨[], []⟩) ∧
    Reger.FindReaderAllStringSubmatch 20 progA (mkReger "a a") =
      GoRes.ok (some [[bytesOf "a"]], ⟨[], []⟩) := by
  refine ⟨by decide, by decide, by decide⟩

/-- C10: in the find-all submatch loops the -1 sentinels of a
non-participating group are shifted by priorLength like every other
offset.  On pattern a(b)? and input (ab, three spaces, a) the second
iteration starts with priorLength 5 and raw engine result [0,1,-1,-1]
(the trace conjunct), so the returned entry is [5,6,4,4]: the group
offsets become priorLength - 1 = 4, no longer the absent marker, and
FindReaderAllSubmatch slices the buffer at [4:4], reporting an empty
group instead of an absent one.  The bufferless variant shifts the same
way. -/
theorem c10_sentinels_shifted_and_sliced :
    Reger.FindReaderAllSubmatchIndex 20 progABopt (mkReger "ab   a") =
      GoRes.ok (some [[0, 2, 1, 2], [5, 6, 4, 4]], ⟨[], bytesOf "ab   a"⟩) ∧
    subIdxTrace progABopt 20 ⟨ofStr "ab   a", []⟩ =
      [(0, [0, 2, 1, 2]), (5, [0, 1, -1, -1])] ∧
    Reger.FindReaderAllSubmatch 20 progABopt (mkReger "ab   a") =
      GoRes.ok (some [[bytesOf "ab", bytesOf "b"], [bytesOf "a", []]],
        ⟨[], bytesOf "ab   a"⟩) ∧
    FindRuneReaderAllSubmatchIndex 20 progABopt (ofStr "ab   a") =
      GoRes.ok (some [[0, 2, 1, 2], [2, 3, 1, 1]], []) := by
  refine ⟨by decide, by decide, by decide, by decide⟩

/-- Appending to a nil-able slice appends to its element list. -/
theorem goElems_goAppend {α : Type} (l : GoList α) (a : α) :
    goElems (goAppend l a) = goElems l ++ [a] := by
  cases l <;> rfl

/-- Loop invariant for the find-all submatch loop: whatever it returns
extends the accumulator with exactly the shifted raw trace entries. -/
theorem allSubIdxLoop_eq_shifted_trace (p : Prog) :
    ∀ (fuel : Nat) (x : Reger) (out : GoList (List Int))
      (res : GoList (List Int)) (x' : Reger),
      allSubIdxLoop p fuel x out = GoRes.ok (res, x') →
      goElems res = goElems out ++ (subIdxTrace p fuel x).map shiftAll := by
  intro fuel
  induction fuel with
  | zero => intro x out res x' h; cases h
  | succ n ih =>
    intro x out res x' h
    rw [allSubIdxLoop] at h
    rw [subIdxTrace]
    rcases hE : (Reger.engineFindSubmatchIndex p x).1 with _ | idxs
    · rw [hE] at h
      simp only [GoRes.ok.injEq, Prod.mk.injEq] at h
      rw [← h.1]
      simp
    · rw [hE] at h
      have := ih (Reger.engineFindSubmatchIndex p x).2
        (goAppend out (idxs.map (fun v => v + (x.buf.length : Int)))) res x' h
      rw [this, goElems_goAppend]
      simp [shiftAll]

/-- Loop invariant for the find-all index loop: whatever it returns extends
the accumulator with exactly the pairwise-shifted raw trace entries. -/
theorem allIdxLoop_eq_shifted_trace (p : Prog) :
    ∀ (fuel : Nat) (x : Reger) (out : GoList (List Int))
      (res : GoList (List Int)) (x' : Reger),
      allIdxLoop p fuel x out = GoRes.ok (res, x') →
      goElems res = goElems out ++ (idxTrace p fuel x).map shiftPair := by
  intro fuel
  induction fuel with
  | zero => intro x out res x' h; cases h
  | succ n ih =>
    intro x out res x' h
    rw [allIdxLoop] at h
    rw [idxTrace]
    rcases hE : (Reger.engineFindIndex p x).1 with _ | idxs
    · rw [hE] at h
      simp only [GoRes.ok.injEq, Prod.mk.injEq] at h
      rw [← h.1]
      simp
    · rw [hE] at h
      have := ih (Reger.engineFindIndex p x).2
        (goAppend out [idxs.getD 0 0 + (x.buf.length : Int),
          idxs.getD 1 0 + (x.buf.length : Int)]) res x' h
      rw [this, goElems_goAppend]
      simp [shiftPair]

/-- C7: every entry a find-all loop returns is the engine's raw result for
that iteration with every offset shifted by priorLength, the number of
bytes already in the buffer before the iteration (for the index loop the
raw result consists of exactly the two whole-match offsets, and both are
shifted); the raw trace starts from the buffer reset at the start of the
call, so the returned offsets are absolute with respect to that reset. -/
theorem c7_every_offset_shifted_by_prior_length :
    ∀ (fuel : Nat) (p : Prog) (x : Reger),
      (∀ out x', Reger.FindReaderAllSubmatchIndex fuel p x = GoRes.ok (out, x') →
        goElems out = (subIdxTrace p fuel { x with buf := [] }).map shiftAll) ∧
      (∀ out x', Reger.FindReaderAllIndex fuel p x = GoRes.ok (out, x') →
        goElems out = (idxTrace p fuel { x with buf := [] }).map shiftPair) := by
  intro fuel p x
  constructor
  · intro out x' h
    have := allSubIdxLoop_eq_shifted_trace p fuel { x with buf := [] } none out x' h
    simpa [goElems] using this
  · intro out x' h
    have := allIdxLoop_eq_shifted_trace p fuel { x with buf := [] } none out x' h
    simpa [goElems] using this

/-- Witness for C7 at a concrete run: the submatch find-all on pattern
a(b)? over (ab, three spaces, a) returns exactly the shifted raw trace. -/
theorem c7_every_offset_shifted_by_prior_length_witness :
    Reger.FindReaderAllSubmatchIndex 20 progABopt (mkReger "ab   a") =
      GoRes.ok (some [[0, 2, 1, 2], [5, 6, 4, 4]], ⟨[], bytesOf "ab   a"⟩) ∧
    goElems (some [[0, 2, 1, 2], [5, 6, 4, 4]] : GoList (List Int)) =
      (subIdxTrace progABopt 20 ⟨ofStr "ab   a", []⟩).map shiftAll :=
  ⟨by decide,
    (c7_every_offset_shifted_by_prior_length 20 progABopt (mkReger "ab   a")).1
      (some [[0, 2, 1, 2], [5, 6, 4, 4]]) ⟨[], bytesOf "ab   a"⟩ (by decide)⟩

/-- Setting a slot within range makes getD at that slot return the value. -/
theorem getD_set_lt (l : List Int) (i : Nat) (a : Int) (h : i < l.length) :
    (l.set i a).getD i 0 = a := by
  induction l generalizing i with
  | nil => simp at h
  | cons hd tl ih =>
    cases i with
    | zero => rfl
    | succ n => simpa using ih n (by simpa using h)

/-- Setting one slot leaves getD at any other slot unchanged. -/
theorem getD_set_ne (l : List Int) (i j : Nat) (a : Int) (h : i ≠ j) :
    (l.set i a).getD j 0 = l.getD j 0 := by
  induction l generalizing i j with
  | nil => simp
  | cons hd tl ih =>
    cases i with
    | zero =>
      cases j with
      | zero => exact absurd rfl h
      | succ m => simp
    | succ n =>
      cases j with
      | zero => simp
      | succ m => simpa using ih n m (fun he => h (by rw [he]))

/-- capOk survives recording the current position into any slot. -/
theorem capOk_set (ncap pos : Nat) (cap : List Int) (slot : Nat)
    (h : capOk ncap pos cap) : capOk ncap pos (cap.set slot (pos : Int)) := by
  obtain ⟨hl, h0, hb⟩ := h
  refine ⟨by simpa using hl, ?_, ?_⟩
  · by_cases hs : slot = 0
    · subst hs
      by_cases hlen : 0 < cap.length
      · rw [getD_set_lt cap 0 _ hlen]; exact Int.ofNat_nonneg pos
      · cases cap with
        | nil => simp
        | cons a t => simp at hlen
    · rw [getD_set_ne cap slot 0 _ hs]; exact h0
  · intro v hv
    rcases List.mem_or_eq_of_mem_set hv with hv' | hv'
    · exact hb v hv'
    · subst hv'; exact le_refl _

/-- capOk is monotone in the scan position. -/
theorem capOk_mono (ncap pos pos' : Nat) (cap : List Int) (hp : pos ≤ pos')
    (h : capOk ncap pos cap) : capOk ncap pos' cap := by
  obtain ⟨hl, h0, hb⟩ := h
  exact ⟨hl, h0, fun v hv => le_trans (hb v hv) (by exact_mod_cast hp)⟩

/-- qOk is monotone in the scan position. -/
theorem qOk_mono (ncap pos pos' : Nat) (q : Queue) (hp : pos ≤ pos')
    (h : qOk ncap pos q) : qOk ncap pos' q :=
  fun e he cap hc => capOk_mono ncap pos pos' cap hp (h e he cap hc)

/-- The add walk preserves the queue invariant when fed an invariant
capture list. -/
theorem addq_qOk (p : Prog) (ncap : Nat) :
    ∀ (fuel : Nat) (q : Queue) (pc pos : Nat) (cap : List Int),
      qOk ncap pos q → capOk ncap pos cap →
      qOk ncap pos (addq p fuel q pc pos cap) := by
  intro fuel
  induction fuel with
  | zero => intro q pc pos cap hq _; exact hq
  | succ n ih =>
    intro q pc pos cap hq hc
    rw [addq]
    by_cases hz : pc = 0
    · simp only [hz, if_true]; exact hq
    · simp only [hz, if_false]
      by_cases hmem : hasPc q pc
      · simp only [hmem, if_true]; exact hq
      · simp only [hmem, if_false]
        have hq1 : ∀ oth, (∀ c2, oth = some c2 → capOk ncap pos c2) →
            qOk ncap pos (q ++ [(pc, oth)]) := by
          intro oth hoth e he cap2 hc2
          rcases List.mem_append.mp he with he' | he'
          · exact hq e he' cap2 hc2
          · simp at he'
            subst he'
            exact hoth cap2 hc2
        cases hI : getInst p pc with
        | fail => exact hq1 none (fun c2 hc2 => by cases hc2)
        | alt out arg =>
          exact ih _ arg pos cap
            (ih _ out pos cap (hq1 none (fun c2 hc2 => by cases hc2)) hc) hc
        | capture slot out =>
          by_cases hs : slot < cap.length
          · simp only [hs, if_true]
            exact ih _ out pos _ (hq1 none (fun c2 hc2 => by cases hc2))
              (capOk_set ncap pos cap slot hc)
          · simp only [hs, if_false]
            exact ih _ out pos cap (hq1 none (fun c2 hc2 => by cases hc2)) hc
        | rune1 c out =>
          exact hq1 (some cap) (fun c2 hc2 => by cases hc2; exact hc)
        | imatch =>
          exact hq1 (some cap) (fun c2 hc2 => by cases hc2; exact hc)

/-- An in-range getD value is an element of the list. -/
theorem getD_mem_of_lt (l : List Int) (i : Nat) (h : i < l.length) :
    l.getD i 0 ∈ l := by
  rw [List.getD_eq_getElem l 0 h]
  exact List.getElem_mem h

/-- The step of the queue preserves the queue invariant at the next
position, keeps the matchcap template bounded by the current position, and
any recorded match is well-formed at the current position. -/
theorem stepq_spec (p : Prog) (ncap : Nat) (hncap : 2 ≤ ncap) :
    ∀ (ents : List (Nat × Option (List Int))) (nextq : Queue)
      (pos nextPos : Nat) (c : Int) (matched : Bool) (mcap : List Int),
      qOk ncap pos ents → qOk ncap nextPos nextq → pos ≤ nextPos →
      tplOk ncap pos mcap → (matched = true → matchOk pos mcap) →
      qOk ncap nextPos (stepq p ents nextq pos nextPos c matched mcap).1 ∧
      tplOk ncap pos (stepq p ents nextq pos nextPos c matched mcap).2.2 ∧
      ((stepq p ents nextq pos nextPos c matched mcap).2.1 = true →
        matchOk pos (stepq p ents nextq pos nextPos c matched mcap).2.2) := by
  intro ents
  induction ents with
  | nil =>
    intro nextq pos nextPos c matched mcap _ hnq _ htpl hm
    exact ⟨hnq, htpl, hm⟩
  | cons e rest ih =>
    intro nextq pos nextPos c matched mcap hents hnq hpp htpl hm
    obtain ⟨pc, oth⟩ := e
    have hrest : qOk ncap pos rest := fun e' he' => hents e' (List.mem_cons_of_mem _ he')
    cases oth with
    | none =>
      exact ih nextq pos nextPos c matched mcap hrest hnq hpp htpl hm
    | some cap =>
      have hcap : capOk ncap pos cap :=
        hents (pc, some cap) (List.mem_cons_self _ _) cap rfl
      rw [stepq]
      cases hI : getInst p pc with
      | imatch =>
        obtain ⟨hl, h0, hb⟩ := hcap
        have h1lt : 1 < cap.length := by omega
        refine ⟨hnq, ⟨by simpa using hl, ?_⟩, ?_⟩
        · intro v hv
          rcases List.mem_or_eq_of_mem_set hv with hv' | hv'
          · exact hb v hv'
          · subst hv'; exact le_refl _
        · intro _
          refine ⟨?_, ?_, ?_⟩
          · rw [getD_set_ne cap 1 0 _ (by omega)]; exact h0
          · rw [getD_set_ne cap 1 0 _ (by omega), getD_set_lt cap 1 _ h1lt]
            exact hb _ (getD_mem_of_lt cap 0 (by omega))
          · rw [getD_set_lt cap 1 _ h1lt]
      | rune1 ch out =>
        by_cases hc : c = ch
        · simp only [hc, if_true]
          exact ih _ pos nextPos ch matched mcap hrest
            (addq_qOk p ncap _ nextq out nextPos cap hnq
              (capOk_mono ncap pos nextPos cap hpp hcap)) hpp htpl hm
        · simp only [hc, if_false]
          exact ih nextq pos nextPos c matched mcap hrest hnq hpp htpl hm
      | fail =>
        exact ih nextq pos nextPos c matched mcap hrest hnq hpp htpl hm
      | alt out arg =>
        exact ih nextq pos nextPos c matched mcap hrest hnq hpp htpl hm
      | capture slot out =>
        exact ih nextq pos nextPos c matched mcap hrest hnq hpp htpl hm

/-- The proxy read never reports an error, and it appends exactly as many
bytes to the buffer as the size it returns. -/
theorem ReadRune_spec (x : Reger) :
    (Reger.ReadRune x).1.2.2 = none ∧
    ∃ δ, (Reger.ReadRune x).2.buf = x.buf ++ δ ∧
      δ.length = (Reger.ReadRune x).1.2.1 := by
  rcases x with ⟨src, buf⟩
  cases src with
  | nil => exact ⟨rfl, [], by simp [Reger.ReadRune, readSrc], rfl⟩
  | cons ev t =>
    cases ev with
    | rn c => exact ⟨rfl, utf8Enc c, rfl, rfl⟩
    | rerr k => exact ⟨rfl, [], by simp [Reger.ReadRune, readSrc], rfl⟩

/-- The input step through the proxy preserves the buffer invariant, never
shrinks the read count, and a nonzero width means the read happened at the
current read position. -/
theorem istep_spec (b0 : List Nat) (ist : IState Reger) (pos : Nat)
    (hI : bufInv b0 ist) :
    bufInv b0 (istep Reger.ReadRune ist pos).2 ∧
    ist.ipos ≤ (istep Reger.ReadRune ist pos).2.ipos ∧
    ((istep Reger.ReadRune ist pos).1.2 ≠ 0 →
      pos + (istep Reger.ReadRune ist pos).1.2 =
        (istep Reger.ReadRune ist pos).2.ipos) := by
  by_cases hg : ist.atEOT = false ∧ pos = ist.ipos
  · obtain ⟨hr1, δr, hbuf, hlen⟩ := ReadRune_spec ist.rd
    rcases hR : Reger.ReadRune ist.rd with ⟨⟨r, w, err⟩, rd'⟩
    rw [hR] at hr1 hbuf hlen
    simp only at hr1 hbuf hlen
    subst hr1
    have hred : istep Reger.ReadRune ist pos =
        ((r, w), { ist with rd := rd', ipos := ist.ipos + w }) := by
      unfold istep
      rw [if_pos hg, hR]
    rw [hred]
    obtain ⟨δ, hδ, hδl⟩ := hI
    refine ⟨⟨δ ++ δr, ?_, ?_⟩, ?_, ?_⟩
    · show rd'.buf = b0 ++ (δ ++ δr)
      rw [hbuf, hδ, List.append_assoc]
    · simp [hδl, hlen]
    · simp
    · intro _
      simp [hg.2]
  · have hred : istep Reger.ReadRune ist pos = ((-1, 0), ist) := by
      unfold istep
      rw [if_neg hg]
    rw [hred]
    exact ⟨hI, le_refl _, fun h => absurd rfl h⟩

/-- The lookahead read of the loop preserves the buffer invariant and the
bound that all handed-out positions stay within the read count. -/
theorem look_spec (b0 : List Nat) (ist : IState Reger) (pos w : Nat)
    (r1 : Int) (hI : bufInv b0 ist) (hb : pos + w ≤ ist.ipos) :
    bufInv b0 (if r1 ≠ -1 then istep Reger.ReadRune ist (pos + w)
      else ((-1, 0), ist)).2 ∧
    pos + w + (if r1 ≠ -1 then istep Reger.ReadRune ist (pos + w)
      else ((-1, 0), ist)).1.2 ≤
      (if r1 ≠ -1 then istep Reger.ReadRune ist (pos + w)
        else ((-1, 0), ist)).2.ipos := by
  by_cases hr : r1 ≠ -1
  · rw [if_pos hr]
    obtain ⟨hI', hmono, heq⟩ := istep_spec b0 ist (pos + w) hI
    refine ⟨hI', ?_⟩
    by_cases hw : (istep Reger.ReadRune ist (pos + w)).1.2 = 0
    · rw [hw]
      exact le_trans (by omega) hmono
    · rw [heq hw]
  · rw [if_neg hr]
    refine ⟨hI, ?_⟩
    show pos + w + 0 ≤ ist.ipos
    omega



/-- The empty queue satisfies the queue invariant. -/
theorem qOk_nil (ncap pos : Nat) : qOk ncap pos [] :=
  fun e he => absurd he (List.not_mem_nil e)

/-- matchOk is monotone in the scan position. -/
theorem matchOk_mono (pos pos' : Nat) (m : List Int) (h : pos ≤ pos')
    (hm : matchOk pos m) : matchOk pos' m :=
  ⟨hm.1, hm.2.1, le_trans hm.2.2 (by exact_mod_cast h)⟩

/-- tplOk is monotone in the scan position. -/
theorem tplOk_mono (ncap pos pos' : Nat) (m : List Int) (h : pos ≤ pos')
    (hm : tplOk ncap pos m) : tplOk ncap pos' m :=
  ⟨hm.1, fun v hv => le_trans (hm.2 v hv) (by exact_mod_cast h)⟩

/-- Seeding a start thread preserves the queue and template invariants. -/
theorem seedq_spec (p : Prog) (ncap : Nat) (hncap : 2 ≤ ncap) (pos : Nat)
    (runq : Queue) (matched : Bool) (mcap : List Int)
    (hq : qOk ncap pos runq) (htpl : tplOk ncap pos mcap)
    (hm : matched = true → matchOk pos mcap) :
    qOk ncap pos (seedq p pos runq matched mcap).1 ∧
    tplOk ncap pos (seedq p pos runq matched mcap).2 ∧
    (matched = true → matchOk pos (seedq p pos runq matched mcap).2) := by
  cases matched with
  | true => exact ⟨hq, htpl, fun _ => hm rfl⟩
  | false =>
    have hlen : (0 : Nat) < mcap.length := by rw [htpl.1]; omega
    have hcap : capOk ncap pos (mcap.set 0 (pos : Int)) := by
      refine ⟨by simpa using htpl.1, ?_, ?_⟩
      · rw [getD_set_lt mcap 0 _ hlen]
        exact Int.ofNat_nonneg pos
      · intro v hv
        rcases List.mem_or_eq_of_mem_set hv with hv' | hv'
        · exact htpl.2 v hv'
        · subst hv'; exact le_refl _
    refine ⟨?_, ⟨hcap.1, hcap.2.2⟩, fun hcon => by cases hcon⟩
    exact addq_qOk p ncap _ runq p.start pos _ hq hcap

/-- The lookahead read preserves the buffer invariant and keeps every
handed-out position within the read count. -/
theorem lookq_spec (b0 : List Nat) (ist : IState Reger) (pos w w1 : Nat)
    (r1 : Int) (hI : bufInv b0 ist) (hb : pos + w + w1 ≤ ist.ipos) :
    bufInv b0 (lookq Reger.ReadRune ist pos w w1 r1).2 ∧
    pos + w + w1 + (lookq Reger.ReadRune ist pos w w1 r1).1.2 ≤
      (lookq Reger.ReadRune ist pos w w1 r1).2.ipos := by
  unfold lookq
  by_cases hr : r1 ≠ -1
  · rw [if_pos hr]
    obtain ⟨hI', hmono, heq⟩ := istep_spec b0 ist (pos + w + w1) hI
    refine ⟨hI', ?_⟩
    by_cases hw : (istep Reger.ReadRune ist (pos + w + w1)).1.2 = 0
    · rw [hw]
      exact le_trans (by omega) hmono
    · rw [heq hw]
  · rw [if_neg hr]
    refine ⟨hI, ?_⟩
    show pos + w + w1 + 0 ≤ ist.ipos
    omega

/-- Main machine-loop invariant: the loop through the proxy only ever
appends to the buffer (exactly tracking the read count), and any match it
reports has a nonnegative start, start at most end, and end at most the
number of bytes handed out. -/
theorem mloop_spec (p : Prog) (ncap : Nat) (hncap : 2 ≤ ncap) (b0 : List Nat) :
    ∀ (fuel pos : Nat) (r : Int) (w : Nat) (r1 : Int) (w1 : Nat)
      (runq : Queue) (matched : Bool) (mcap : List Int) (ist : IState Reger),
      bufInv b0 ist → pos + w + w1 ≤ ist.ipos →
      qOk ncap pos runq → tplOk ncap pos mcap →
      (matched = true → matchOk pos mcap) →
      bufInv b0 (mloop Reger.ReadRune p fuel pos r w r1 w1 runq matched mcap ist).2 ∧
      ∀ caps,
        (mloop Reger.ReadRune p fuel pos r w r1 w1 runq matched mcap ist).1 =
          some caps →
        0 ≤ caps.getD 0 0 ∧ caps.getD 0 0 ≤ caps.getD 1 0 ∧
        caps.getD 1 0 ≤
          ((mloop Reger.ReadRune p fuel pos r w r1 w1 runq matched mcap ist).2.ipos : Int) := by
  intro fuel
  induction fuel with
  | zero =>
    intro pos r w r1 w1 runq matched mcap ist hI hb hq htpl hm
    rw [mloop]
    refine ⟨hI, ?_⟩
    intro caps hc
    cases matched with
    | false => cases hc
    | true =>
      simp only [if_true] at hc
      cases hc
      obtain ⟨h0, h01, h1⟩ := hm rfl
      exact ⟨h0, h01, le_trans h1 (by exact_mod_cast Nat.le_trans (by omega) hb)⟩
  | succ n ih =>
    intro pos r w r1 w1 runq matched mcap ist hI hb hq htpl hm
    rw [mloop]
    by_cases hbrk : runq.isEmpty = true ∧ matched = true
    · rw [if_pos (by exact ⟨hbrk.1, hbrk.2⟩)]
      refine ⟨hI, ?_⟩
      intro caps hc
      cases hc
      obtain ⟨h0, h01, h1⟩ := hm hbrk.2
      exact ⟨h0, h01, le_trans h1 (by exact_mod_cast Nat.le_trans (by omega) hb)⟩
    · rw [if_neg (by exact fun hcon => hbrk ⟨hcon.1, hcon.2⟩)]
      obtain ⟨hsq, hst, hsm⟩ :=
        seedq_spec p ncap hncap pos runq matched mcap hq htpl hm
      obtain ⟨hq2, ht2, hm2⟩ := stepq_spec p ncap hncap
        (seedq p pos runq matched mcap).1 [] pos (pos + w) r matched
        (seedq p pos runq matched mcap).2 hsq (qOk_nil ncap (pos + w))
        (Nat.le_add_right pos w) hst hsm
      by_cases hw : w = 0
      · rw [if_pos hw]
        refine ⟨hI, ?_⟩
        intro caps hc
        rcases hT : (stepq p (seedq p pos runq matched mcap).1 [] pos (pos + w)
            r matched (seedq p pos runq matched mcap).2).2.1 with _ | _
        · rw [hT] at hc
          cases hc
        · rw [hT] at hc
          simp only [if_true] at hc
          cases hc
          obtain ⟨h0, h01, h1⟩ := hm2 hT
          exact ⟨h0, h01,
            le_trans h1 (by exact_mod_cast Nat.le_trans (by omega) hb)⟩
      · rw [if_neg hw]
        obtain ⟨hIL, hbL⟩ := lookq_spec b0 ist pos w w1 r1 hI hb
        exact ih (pos + w) r1 w1 (lookq Reger.ReadRune ist pos w w1 r1).1.1
          (lookq Reger.ReadRune ist pos w w1 r1).1.2
          (stepq p (seedq p pos runq matched mcap).1 [] pos (pos + w) r matched
            (seedq p pos runq matched mcap).2).1
          (stepq p (seedq p pos runq matched mcap).1 [] pos (pos + w) r matched
            (seedq p pos runq matched mcap).2).2.1
          (stepq p (seedq p pos runq matched mcap).1 [] pos (pos + w) r matched
            (seedq p pos runq matched mcap).2).2.2
          (lookq Reger.ReadRune ist pos w w1 r1).2 hIL hbL hq2
          (tplOk_mono ncap pos (pos + w) _ (Nat.le_add_right pos w) ht2)
          (fun hmt => matchOk_mono pos (pos + w) _ (Nat.le_add_right pos w)
            (hm2 hmt))

/-- getD below the take bound sees through take. -/
theorem getD_take (l : List Int) (i n : Nat) (h : i < n) :
    (l.take n).getD i 0 = l.getD i 0 := by
  induction l generalizing i n with
  | nil => simp
  | cons hd tl ih =>
    cases n with
    | zero => omega
    | succ m =>
      cases i with
      | zero => simp
      | succ j => simpa using ih j m (by omega)


/-- Engine-call invariant through the proxy: a call only appends to the
buffer, and a reported whole match has a nonnegative start, start at most
end, and end within the bytes this call appended. -/
theorem engineFindIndex_spec (p : Prog) (x : Reger) :
    (∃ δ, (Reger.engineFindIndex p x).2.buf = x.buf ++ δ) ∧
    ∀ pr, (Reger.engineFindIndex p x).1 = some pr →
      0 ≤ pr.getD 0 0 ∧ pr.getD 0 0 ≤ pr.getD 1 0 ∧
      (x.buf.length : Int) + pr.getD 1 0 ≤
        ((Reger.engineFindIndex p x).2.buf.length : Int) := by
  have hI0 : bufInv x.buf ⟨x, false, 0⟩ := ⟨[], by simp, rfl⟩
  obtain ⟨hIF, hmF, heF⟩ := istep_spec x.buf ⟨x, false, 0⟩ 0 hI0
  set F := istep Reger.ReadRune ⟨x, false, 0⟩ 0 with hFdef
  have hbF : 0 + F.1.2 + 0 ≤ F.2.ipos := by
    by_cases hz : F.1.2 = 0
    · rw [hz]
      simp
    · have := heF hz
      omega
  obtain ⟨hIL, hbL⟩ := lookq_spec x.buf F.2 0 F.1.2 0 F.1.1 hIF hbF
  set L := lookq Reger.ReadRune F.2 0 F.1.2 0 F.1.1 with hLdef
  have hb2 : 0 + F.1.2 + L.1.2 ≤ L.2.ipos := by omega
  have htpl : tplOk 2 0 (List.replicate 2 (-1)) := by
    refine ⟨by simp, ?_⟩
    intro v hv
    rw [List.eq_of_mem_replicate hv]
    omega
  obtain ⟨hIm, hcapm⟩ := mloop_spec p 2 (le_refl 2) x.buf
    (srcFuel x.src.length) 0 F.1.1 F.1.2 L.1.1 L.1.2 [] false
    (List.replicate 2 (-1)) L.2 hIL hb2 (qOk_nil 2 0) htpl
    (fun h => by cases h)
  set M := mloop Reger.ReadRune p (srcFuel x.src.length) 0 F.1.1 F.1.2 L.1.1
    L.1.2 [] false (List.replicate 2 (-1)) L.2 with hMdef
  have hEq : Reger.engineFindIndex p x =
      ((M.1).map (fun a => a.take 2), M.2.rd) := rfl
  obtain ⟨δ, hδ, hδl⟩ := hIm
  constructor
  · rw [hEq]
    exact ⟨δ, hδ⟩
  · intro pr hpr
    rw [hEq] at hpr
    simp only at hpr
    rcases Option.map_eq_some'.mp hpr with ⟨caps, hcaps, hpr'⟩
    obtain ⟨h0, h01, h1⟩ := hcapm caps hcaps
    subst hpr'
    rw [getD_take caps 0 2 (by omega), getD_take caps 1 2 (by omega)]
    refine ⟨h0, h01, ?_⟩
    rw [hEq]
    show (x.buf.length : Int) + caps.getD 1 0 ≤ (M.2.rd.buf.length : Int)
    rw [hδ]
    rw [List.length_append]
    push_cast
    omega

/-- Chain invariant of the find-all index loop: starting from an
accumulator whose entries are well-formed, chained, and whose last end is
within the current buffer, the returned list is well-formed and chained. -/
theorem allIdxLoop_ordered (p : Prog) :
    ∀ (fuel : Nat) (x : Reger) (out res : GoList (List Int)) (x' : Reger),
      allIdxLoop p fuel x out = GoRes.ok (res, x') →
      (∀ e ∈ goElems out, entryOk e) →
      entriesChained (goElems out) →
      (∀ a ∈ (goElems out).getLast?, a.getD 1 0 ≤ (x.buf.length : Int)) →
      (∀ e ∈ goElems res, entryOk e) ∧ entriesChained (goElems res) := by
  intro fuel
  induction fuel with
  | zero => intro x out res x' h; cases h
  | succ n ih =>
    intro x out res x' h hok hch hlast
    rw [allIdxLoop] at h
    obtain ⟨hext, hbound⟩ := engineFindIndex_spec p x
    rcases hE : (Reger.engineFindIndex p x).1 with _ | idxs
    · rw [hE] at h
      simp only [GoRes.ok.injEq, Prod.mk.injEq] at h
      rw [← h.1]
      exact ⟨hok, hch⟩
    · rw [hE] at h
      obtain ⟨h0, h01, h1⟩ := hbound idxs hE
      refine ih (Reger.engineFindIndex p x).2
        (goAppend out [idxs.getD 0 0 + (x.buf.length : Int),
          idxs.getD 1 0 + (x.buf.length : Int)]) res x' h ?_ ?_ ?_
      · intro e he
        rw [goElems_goAppend] at he
        rcases List.mem_append.mp he with he' | he'
        · exact hok e he'
        · simp only [List.mem_singleton] at he'
          subst he'
          constructor
          · show (0 : Int) ≤ idxs.getD 0 0 + (x.buf.length : Int)
            have : (0 : Int) ≤ (x.buf.length : Int) := Int.ofNat_nonneg _
            omega
          · show idxs.getD 0 0 + (x.buf.length : Int) ≤
              idxs.getD 1 0 + (x.buf.length : Int)
            omega
      · rw [goElems_goAppend]
        unfold entriesChained at hch ⊢
        rw [List.chain'_append]
        refine ⟨hch, by simp, ?_⟩
        intro a ha b hb
        simp only [List.head?_cons, Option.mem_some_iff] at hb
        subst hb
        have hla := hlast a ha
        show a.getD 1 0 ≤ [idxs.getD 0 0 + (x.buf.length : Int),
          idxs.getD 1 0 + (x.buf.length : Int)].getD 0 0
        have : (a.getD 1 0) ≤ (x.buf.length : Int) + idxs.getD 0 0 := by omega
        simpa [Int.add_comm] using this
      · rw [goElems_goAppend]
        intro a ha
        rw [List.getLast?_concat] at ha
        simp only [Option.mem_some_iff] at ha
        subst ha
        show [idxs.getD 0 0 + (x.buf.length : Int),
          idxs.getD 1 0 + (x.buf.length : Int)].getD 1 0 ≤
          (((Reger.engineFindIndex p x).2.buf.length : Int))
        have : idxs.getD 1 0 + (x.buf.length : Int) ≤
            ((Reger.engineFindIndex p x).2.buf.length : Int) := by omega
        simpa using this

/-- C9: in the list returned by FindReaderAllIndex every entry has a
nonnegative start not exceeding its end, and successive entries are
chained: each entry's start is at least the previous entry's end, so the
absolute offsets are non-decreasing across the list. -/
theorem c9_find_all_index_offsets_ordered :
    ∀ (fuel : Nat) (p : Prog) (x : Reger) (out : GoList (List Int))
      (x' : Reger),
      Reger.FindReaderAllIndex fuel p x = GoRes.ok (out, x') →
      (∀ e ∈ goElems out, entryOk e) ∧ entriesChained (goElems out) := by
  intro fuel p x out x' h
  refine allIdxLoop_ordered p fuel { x with buf := [] } none out x' h ?_ ?_ ?_
  · intro e he
    simp [goElems] at he
  · simp [entriesChained, goElems]
  · intro a ha
    simp [goElems] at ha

/-- Witness for C9 at a concrete run: the two entries returned for pattern
a over (aa, two spaces, a) are well-formed and chained. -/
theorem c9_find_all_index_offsets_ordered_witness :
    Reger.FindReaderAllIndex 20 progA (mkReger "aa  a") =
      GoRes.ok (some [[0, 1], [4, 5]], ⟨[], bytesOf "aa  a"⟩) ∧
    ((∀ e ∈ goElems (some [[0, 1], [4, 5]] : GoList (List Int)), entryOk e) ∧
      entriesChained (goElems (some [[0, 1], [4, 5]] : GoList (List Int)))) :=
  ⟨by decide,
    c9_find_all_index_offsets_ordered 20 progA (mkReger "aa  a")
      (some [[0, 1], [4, 5]]) ⟨[], bytesOf "aa  a"⟩ (by decide)⟩

/-- Normalising error kinds does not change the number of pending reads. -/
theorem eraseKinds_length (s : Src) : (eraseKinds s).length = s.length :=
  List.length_map s _

/-- One proxy read behaves identically on a source with normalised error
kinds: same returned triple, and the successor state is the normalised
successor. -/
theorem ReadRune_erase (x : Reger) :
    Reger.ReadRune (eraseReger x) =
      ((Reger.ReadRune x).1, eraseReger (Reger.ReadRune x).2) := by
  rcases x with ⟨src, b⟩
  cases src with
  | nil => rfl
  | cons ev t => cases ev <;> rfl

/-- One input step behaves identically up to error-kind normalisation. -/
theorem istep_erase (ist : IState Reger) (pos : Nat) :
    istep Reger.ReadRune (eraseIState ist) pos =
      ((istep Reger.ReadRune ist pos).1,
        eraseIState (istep Reger.ReadRune ist pos).2) := by
  rcases ist with ⟨⟨src, b⟩, eot, ipos⟩
  unfold istep
  simp only [eraseIState, eraseReger]
  by_cases hg : eot = false ∧ pos = ipos
  · simp only [if_pos hg]
    cases src with
    | nil => rfl
    | cons ev t => cases ev <;> rfl
  · simp only [if_neg hg]

/-- The lookahead read behaves identically up to error-kind
normalisation. -/
theorem lookq_erase (ist : IState Reger) (pos w w1 : Nat) (r1 : Int) :
    lookq Reger.ReadRune (eraseIState ist) pos w w1 r1 =
      ((lookq Reger.ReadRune ist pos w w1 r1).1,
        eraseIState (lookq Reger.ReadRune ist pos w w1 r1).2) := by
  unfold lookq
  by_cases hr : r1 ≠ -1
  · rw [if_pos hr, if_pos hr]
    exact istep_erase ist (pos + w + w1)
  · rw [if_neg hr, if_neg hr]

/-- The machine loop behaves identically up to error-kind normalisation:
same result, and the final input state is the normalised one. -/
theorem mloop_erase (p : Prog) :
    ∀ (fuel pos : Nat) (r : Int) (w : Nat) (r1 : Int) (w1 : Nat)
      (runq : Queue) (matched : Bool) (mcap : List Int) (ist : IState Reger),
      mloop Reger.ReadRune p fuel pos r w r1 w1 runq matched mcap
          (eraseIState ist) =
        ((mloop Reger.ReadRune p fuel pos r w r1 w1 runq matched mcap ist).1,
          eraseIState
            (mloop Reger.ReadRune p fuel pos r w r1 w1 runq matched mcap
              ist).2) := by
  intro fuel
  induction fuel with
  | zero =>
    intro pos r w r1 w1 runq matched mcap ist
    rw [mloop, mloop]
  | succ n ih =>
    intro pos r w r1 w1 runq matched mcap ist
    rw [mloop, mloop]
    by_cases hbrk : runq.isEmpty = true ∧ matched = true
    · rw [if_pos hbrk, if_pos hbrk]
    · rw [if_neg hbrk, if_neg hbrk]
      by_cases hw : w = 0
      · rw [if_pos hw, if_pos hw]
      · rw [if_neg hw, if_neg hw]
        rw [lookq_erase ist pos w w1 r1]
        exact ih (pos + w) r1 w1 (lookq Reger.ReadRune ist pos w w1 r1).1.1
          (lookq Reger.ReadRune ist pos w w1 r1).1.2 _ _ _
          (lookq Reger.ReadRune ist pos w w1 r1).2

/-- A whole machine run behaves identically up to error-kind
normalisation. -/
theorem mmatch_erase (p : Prog) (ncap fuel : Nat) (x : Reger) :
    mmatch Reger.ReadRune p ncap fuel (eraseReger x) =
      ((mmatch Reger.ReadRune p ncap fuel x).1,
        eraseReger (mmatch Reger.ReadRune p ncap fuel x).2) := by
  unfold mmatch
  rw [show (⟨eraseReger x, false, 0⟩ : IState Reger) =
    eraseIState ⟨x, false, 0⟩ from rfl]
  rw [istep_erase ⟨x, false, 0⟩ 0]
  dsimp only
  rw [lookq_erase (istep Reger.ReadRune ⟨x, false, 0⟩ 0).2 0
    (istep Reger.ReadRune ⟨x, false, 0⟩ 0).1.2 0
    (istep Reger.ReadRune ⟨x, false, 0⟩ 0).1.1]
  dsimp only
  rw [mloop_erase]
  rfl

/-- The engine's streaming find behaves identically up to error-kind
normalisation. -/
theorem engineFindIndex_erase (p : Prog) (x : Reger) :
    Reger.engineFindIndex p (eraseReger x) =
      ((Reger.engineFindIndex p x).1,
        eraseReger (Reger.engineFindIndex p x).2) := by
  unfold Reger.engineFindIndex FindReaderIndexOn
  rw [show (eraseReger x).src.length = x.src.length from eraseKinds_length x.src]
  rw [show (eraseReger x : Reger) = eraseReger x from rfl, mmatch_erase]

/-- The engine's streaming submatch find behaves identically up to
error-kind normalisation. -/
theorem engineFindSubmatchIndex_erase (p : Prog) (x : Reger) :
    Reger.engineFindSubmatchIndex p (eraseReger x) =
      ((Reger.engineFindSubmatchIndex p x).1,
        eraseReger (Reger.engineFindSubmatchIndex p x).2) := by
  unfold Reger.engineFindSubmatchIndex FindReaderSubmatchIndexOn
  rw [show (eraseReger x).src.length = x.src.length from eraseKinds_length x.src]
  rw [mmatch_erase]

/-- FindReader behaves identically up to error-kind normalisation. -/
theorem FindReader_erase (p : Prog) (x : Reger) :
    Reger.FindReader p (eraseReger x) = eraseStRes (Reger.FindReader p x) := by
  unfold Reger.FindReader
  rw [show ({ eraseReger x with buf := [] } : Reger) =
    eraseReger { x with buf := [] } from rfl]
  dsimp only
  rw [engineFindIndex_erase]
  dsimp only
  rcases (Reger.engineFindIndex p { x with buf := [] }).1 with _ | idxs
  · rfl
  · dsimp only
    rw [show (eraseReger (Reger.engineFindIndex p { x with buf := [] }).2).buf =
      (Reger.engineFindIndex p { x with buf := [] }).2.buf from rfl]
    rcases sliceRange (Reger.engineFindIndex p { x with buf := [] }).2.buf
      (idxs.getD 0 0) (idxs.getD 1 0) with _ | bs <;> rfl

/-- FindReaderString behaves identically up to error-kind normalisation. -/
theorem FindReaderString_erase (p : Prog) (x : Reger) :
    Reger.FindReaderString p (eraseReger x) =
      eraseStRes (Reger.FindReaderString p x) := by
  unfold Reger.FindReaderString
  rw [FindReader_erase]
  rcases Reger.FindReader p x with ⟨a, x'⟩ | _ | _
  · rcases a with _ | b <;> rfl
  · rfl
  · rfl

/-- FindReaderSubmatch behaves identically up to error-kind
normalisation. -/
theorem FindReaderSubmatch_erase (p : Prog) (x : Reger) :
    Reger.FindReaderSubmatch p (eraseReger x) =
      eraseStRes (Reger.FindReaderSubmatch p x) := by
  unfold Reger.FindReaderSubmatch
  rw [show ({ eraseReger x with buf := [] } : Reger) =
    eraseReger { x with buf := [] } from rfl]
  dsimp only
  rw [engineFindSubmatchIndex_erase]
  dsimp only
  rcases (Reger.engineFindSubmatchIndex p { x with buf := [] }).1 with _ | idxs
  · rfl
  · dsimp only
    rw [show (eraseReger
        (Reger.engineFindSubmatchIndex p { x with buf := [] }).2).buf =
      (Reger.engineFindSubmatchIndex p { x with buf := [] }).2.buf from rfl]
    rcases slicePairs
      (Reger.engineFindSubmatchIndex p { x with buf := [] }).2.buf idxs
      with _ | out <;> rfl

/-- FindReaderStringSubmatch behaves identically up to error-kind
normalisation. -/
theorem FindReaderStringSubmatch_erase (p : Prog) (x : Reger) :
    Reger.FindReaderStringSubmatch p (eraseReger x) =
      eraseStRes (Reger.FindReaderStringSubmatch p x) := by
  unfold Reger.FindReaderStringSubmatch
  rw [FindReaderSubmatch_erase]
  rcases Reger.FindReaderSubmatch p x with ⟨a, x'⟩ | _ | _
  · rcases a with _ | bs <;> rfl
  · rfl
  · rfl

/-- The find-all index loop behaves identically up to error-kind
normalisation. -/
theorem allIdxLoop_erase (p : Prog) :
    ∀ (fuel : Nat) (x : Reger) (out : GoList (List Int)),
      allIdxLoop p fuel (eraseReger x) out =
        eraseStRes (allIdxLoop p fuel x out) := by
  intro fuel
  induction fuel with
  | zero => intro x out; rfl
  | succ n ih =>
    intro x out
    rw [allIdxLoop, allIdxLoop]
    dsimp only
    rw [engineFindIndex_erase]
    dsimp only
    rw [show (eraseReger x).buf.length = x.buf.length from rfl]
    rcases (Reger.engineFindIndex p x).1 with _ | idxs
    · rfl
    · dsimp only
      exact ih (Reger.engineFindIndex p x).2
        (goAppend out [idxs.getD 0 0 + (x.buf.length : Int),
          idxs.getD 1 0 + (x.buf.length : Int)])

/-- The find-all submatch index loop behaves identically up to error-kind
normalisation. -/
theorem allSubIdxLoop_erase (p : Prog) :
    ∀ (fuel : Nat) (x : Reger) (out : GoList (List Int)),
      allSubIdxLoop p fuel (eraseReger x) out =
        eraseStRes (allSubIdxLoop p fuel x out) := by
  intro fuel
  induction fuel with
  | zero => intro x out; rfl
  | succ n ih =>
    intro x out
    rw [allSubIdxLoop, allSubIdxLoop]
    try dsimp only
    rw [engineFindSubmatchIndex_erase]
    try dsimp only
    rw [show (eraseReger x).buf.length = x.buf.length from rfl]
    rcases (Reger.engineFindSubmatchIndex p x).1 with _ | idxs
    · rfl
    · try dsimp only
      exact ih (Reger.engineFindSubmatchIndex p x).2
        (goAppend out (idxs.map (fun v => v + (x.buf.length : Int))))

/-- The string find-all loop behaves identically up to error-kind
normalisation. -/
theorem allStringLoop_erase (p : Prog) :
    ∀ (fuel : Nat) (x : Reger) (out : GoList (List Nat)),
      allStringLoop p fuel (eraseReger x) out =
        eraseStRes (allStringLoop p fuel x out) := by
  intro fuel
  induction fuel with
  | zero => intro x out; rfl
  | succ n ih =>
    intro x out
    rw [allStringLoop, allStringLoop, FindReaderStringSubmatch_erase]
    rcases Reger.FindReaderStringSubmatch p x with ⟨a, x'⟩ | _ | _
    · rcases a with _ | ss
      · rfl
      · exact ih x' (goAppend out (ss.getD 0 []))
    · rfl
    · rfl

/-- The string find-all submatch loop behaves identically up to error-kind
normalisation. -/
theorem allStringSubLoop_erase (p : Prog) :
    ∀ (fuel : Nat) (x : Reger) (out : GoList (List (List Nat))),
      allStringSubLoop p fuel (eraseReger x) out =
        eraseStRes (allStringSubLoop p fuel x out) := by
  intro fuel
  induction fuel with
  | zero => intro x out; rfl
  | succ n ih =>
    intro x out
    rw [allStringSubLoop, allStringSubLoop, FindReaderStringSubmatch_erase]
    rcases Reger.FindReaderStringSubmatch p x with ⟨a, x'⟩ | _ | _
    · rcases a with _ | ss
      · rfl
      · exact ih x' (goAppend out ss)
    · rfl
    · rfl

/-- FindReaderAllIndex behaves identically up to error-kind
normalisation. -/
theorem FindReaderAllIndex_erase (fuel : Nat) (p : Prog) (x : Reger) :
    Reger.FindReaderAllIndex fuel p (eraseReger x) =
      eraseStRes (Reger.FindReaderAllIndex fuel p x) := by
  unfold Reger.FindReaderAllIndex
  rw [show ({ eraseReger x with buf := [] } : Reger) =
    eraseReger { x with buf := [] } from rfl]
  exact allIdxLoop_erase p fuel { x with buf := [] } none

/-- FindReaderAll behaves identically up to error-kind normalisation. -/
theorem FindReaderAll_erase (fuel : Nat) (p : Prog) (x : Reger) :
    Reger.FindReaderAll fuel p (eraseReger x) =
      eraseStRes (Reger.FindReaderAll fuel p x) := by
  unfold Reger.FindReaderAll
  rw [FindReaderAllIndex_erase]
  rcases Reger.FindReaderAllIndex fuel p x with ⟨a, x'⟩ | _ | _
  · rcases a with _ | idxs
    · rfl
    · dsimp only [eraseStRes]
      rw [show (eraseReger x').buf = x'.buf from rfl]
      rcases slicePairs x'.buf
        (idxs.flatMap (fun l => [l.getD 0 0, l.getD 1 0])) with _ | out <;> rfl
  · rfl
  · rfl

/-- FindReaderAllString behaves identically up to error-kind
normalisation. -/
theorem FindReaderAllString_erase (fuel : Nat) (p : Prog) (x : Reger) :
    Reger.FindReaderAllString fuel p (eraseReger x) =
      eraseStRes (Reger.FindReaderAllString fuel p x) := by
  unfold Reger.FindReaderAllString
  exact allStringLoop_erase p fuel x none

/-- FindReaderAllSubmatchIndex behaves identically up to error-kind
normalisation. -/
theorem FindReaderAllSubmatchIndex_erase (fuel : Nat) (p : Prog) (x : Reger) :
    Reger.FindReaderAllSubmatchIndex fuel p (eraseReger x) =
      eraseStRes (Reger.FindReaderAllSubmatchIndex fuel p x) := by
  unfold Reger.FindReaderAllSubmatchIndex
  rw [show ({ eraseReger x with buf := [] } : Reger) =
    eraseReger { x with buf := [] } from rfl]
  exact allSubIdxLoop_erase p fuel { x with buf := [] } none

/-- FindReaderAllSubmatch behaves identically up to error-kind
normalisation. -/
theorem FindReaderAllSubmatch_erase (fuel : Nat) (p : Prog) (x : Reger) :
    Reger.FindReaderAllSubmatch fuel p (eraseReger x) =
      eraseStRes (Reger.FindReaderAllSubmatch fuel p x) := by
  unfold Reger.FindReaderAllSubmatch
  rw [FindReaderAllSubmatchIndex_erase]
  rcases Reger.FindReaderAllSubmatchIndex fuel p x with ⟨a, x'⟩ | _ | _
  · rcases a with _ | idxs
    · rfl
    · dsimp only [eraseStRes]
      rw [show (eraseReger x').buf = x'.buf from rfl]
      rcases sliceSets x'.buf idxs with _ | out <;> rfl
  · rfl
  · rfl

/-- FindReaderAllStringSubmatch behaves identically up to error-kind
normalisation. -/
theorem FindReaderAllStringSubmatch_erase (fuel : Nat) (p : Prog)
    (x : Reger) :
    Reger.FindReaderAllStringSubmatch fuel p (eraseReger x) =
      eraseStRes (Reger.FindReaderAllStringSubmatch fuel p x) := by
  unfold Reger.FindReaderAllStringSubmatch
  exact allStringSubLoop_erase p fuel x none

/-- C1 counterexample: the proxy does not report end-of-stream, and an
erroring read does not always surface as no-match or end of iteration.
When the wrapped source is exhausted it reports end-of-stream itself (the
error of kind 0, io.EOF); Reger.ReadRune returns a nil error — a
successful zero-width read, not an end-of-stream report — and a find
operation on that source can yield a present match rather than no match:
FindReader with the nullable pattern a* on an empty source returns the
(non-nil, empty) match, not the absent value. -/
theorem c1_proxy_swallows_end_of_stream_report :
    readSrc [] = ((0, 0, some 0), []) ∧
    Reger.ReadRune ⟨[], []⟩ = ((0, 0, none), ⟨[], []⟩) ∧
    ((none : Option Nat) ≠ some 0) ∧
    Reger.FindReader progAStar (mkReger "") =
      GoRes.ok (some [], ⟨[], []⟩) ∧
    ((some [] : Option (List Nat)) ≠ none) := by
  refine ⟨by decide, by decide, by decide, by decide, by decide⟩

/-- C1 (amended): on any error from the wrapped source — the clean
end-of-file of an exhausted source or a genuine I/O error of any kind —
Reger.ReadRune returns the one fixed successful result (rune 0, size 0,
nil error) with the buffer untouched; it never forwards an error, and in
fact never returns one at all.  Consequently every find operation of the
proxy treats the two conditions identically: normalising every error kind
in the source to clean end-of-file changes no find operation's outcome
(same value — match, absent, panic or divergence — same final buffer, and
a final source equal up to the discarded kinds), so no find operation
ever surfaces a distinct error for an I/O failure. -/
theorem c1_error_collapse_uniform :
    (∀ (x : Reger), (Reger.ReadRune x).1.2.2 = none) ∧
    (∀ (k : Nat) (t : Src) (b : List Nat),
      Reger.ReadRune ⟨RuneEv.rerr k :: t, b⟩ = ((0, 0, none), ⟨t, b⟩) ∧
      Reger.ReadRune ⟨[], b⟩ = ((0, 0, none), ⟨[], b⟩)) ∧
    ∀ (p : Prog) (fuel : Nat) (x : Reger),
      Reger.FindReader p (eraseReger x) =
        eraseStRes (Reger.FindReader p x) ∧
      Reger.FindReaderString p (eraseReger x) =
        eraseStRes (Reger.FindReaderString p x) ∧
      Reger.FindReaderSubmatch p (eraseReger x) =
        eraseStRes (Reger.FindReaderSubmatch p x) ∧
      Reger.FindReaderStringSubmatch p (eraseReger x) =
        eraseStRes (Reger.FindReaderStringSubmatch p x) ∧
      Reger.FindReaderAllIndex fuel p (eraseReger x) =
        eraseStRes (Reger.FindReaderAllIndex fuel p x) ∧
      Reger.FindReaderAll fuel p (eraseReger x) =
        eraseStRes (Reger.FindReaderAll fuel p x) ∧
      Reger.FindReaderAllString fuel p (eraseReger x) =
        eraseStRes (Reger.FindReaderAllString fuel p x) ∧
      Reger.FindReaderAllSubmatchIndex fuel p (eraseReger x) =
        eraseStRes (Reger.FindReaderAllSubmatchIndex fuel p x) ∧
      Reger.FindReaderAllSubmatch fuel p (eraseReger x) =
        eraseStRes (Reger.FindReaderAllSubmatch fuel p x) ∧
      Reger.FindReaderAllStringSubmatch fuel p (eraseReger x) =
        eraseStRes (Reger.FindReaderAllStringSubmatch fuel p x) := by
  refine ⟨fun x => (ReadRune_spec x).1, fun k t b => ⟨rfl, rfl⟩, ?_⟩
  intro p fuel x
  exact ⟨FindReader_erase p x, FindReaderString_erase p x,
    FindReaderSubmatch_erase p x, FindReaderStringSubmatch_erase p x,
    FindReaderAllIndex_erase fuel p x, FindReaderAll_erase fuel p x,
    FindReaderAllString_erase fuel p x,
    FindReaderAllSubmatchIndex_erase fuel p x,
    FindReaderAllSubmatch_erase fuel p x,
    FindReaderAllStringSubmatch_erase fuel p x⟩
